import Mathlib

/-!
Shallow embedding of `django-github-app` (files
`src/django_github_app/mentions.py` and `src/django_github_app/permissions.py`)
and proofs about it.

Text is modelled as `List Char`; a Python string index corresponds to a list
index (both count code points).  Python's regular-expression constants in
`mentions.py` are fixed literal patterns; each is translated into an explicit
scanner with the exact semantics of that pattern under `re`'s leftmost,
non-overlapping `finditer`/`sub` scan.  Character classes are modelled at
ASCII granularity, matching the inputs the repository works with.
-/

namespace DGA

/-- Python's `\s` on ASCII text: space, tab, newline, carriage return,
vertical tab, form feed. -/
def isSpaceChar (c : Char) : Bool :=
  c = ' ' || c = '\t' || c = '\n' || c = '\r' || c = '\x0b' || c = '\x0c'

/-- The character class `[a-z\d]` under `re.IGNORECASE`: ASCII letters and
digits. -/
def isUserChar (c : Char) : Bool :=
  c.isAlpha || c.isDigit

/-! ### The three blanking passes of `extract_all_mentions`

`CODE_BLOCK_PATTERN = re.compile(r"```[\s\S]*?```", re.MULTILINE)`
`INLINE_CODE_PATTERN = re.compile(r"`[^`]+`")`
`BLOCKQUOTE_PATTERN = re.compile(r"^\s*>.*$", re.MULTILINE)`

each applied with `.sub(lambda m: " " * len(m.group(0)), text)`, i.e. every
match is replaced by an equal-length run of spaces. -/

/-- Does the list start with a triple-backtick fence? -/
def startsWithFence : List Char → Bool
  | '`' :: '`' :: '`' :: _ => true
  | _ => false

/-- Index of the first occurrence of three consecutive backticks. -/
def findFence : List Char → Option Nat
  | [] => none
  | c :: rest =>
    if startsWithFence (c :: rest) then some 0
    else (findFence rest).map (· + 1)

/-- `CODE_BLOCK_PATTERN.sub(spaces, text)`: a match starts at a fence and ends
at the earliest following fence (non-greedy `[\s\S]*?`), closing fence
included; the scan resumes after the match.  If an opening fence has no
closing fence at distance ≥ 3 the rest of the text has no further match.
Every step consumes at least one character, so the structural `fuel`
(initialised to the text length by `blankCodeBlocks`) never runs out. -/
def blankCodeBlocksGo : Nat → List Char → List Char
  | 0, l => l
  | _ + 1, [] => []
  | fuel + 1, c :: rest =>
    if startsWithFence (c :: rest) then
      match findFence (rest.drop 2) with
      | some k =>
        List.replicate (k + 6) ' ' ++
          blankCodeBlocksGo fuel ((c :: rest).drop (k + 6))
      | none => c :: rest
    else
      c :: blankCodeBlocksGo fuel rest

def blankCodeBlocks (l : List Char) : List Char :=
  blankCodeBlocksGo l.length l

/-- `INLINE_CODE_PATTERN.sub(spaces, text)`: a match is a backtick, one or
more non-backticks, and a backtick (so the run of non-backticks after an
opening backtick must be nonempty and must be followed by a backtick). -/
def blankInlineCodeGo : Nat → List Char → List Char
  | 0, l => l
  | _ + 1, [] => []
  | fuel + 1, c :: rest =>
    if c = '`' then
      let inner := rest.takeWhile (fun d => !(d = '`'))
      if inner.length ≥ 1 ∧ inner.length < rest.length then
        List.replicate (inner.length + 2) ' ' ++
          blankInlineCodeGo fuel (rest.drop (inner.length + 1))
      else
        c :: blankInlineCodeGo fuel rest
    else
      c :: blankInlineCodeGo fuel rest

def blankInlineCode (l : List Char) : List Char :=
  blankInlineCodeGo l.length l

/-- Does `^\s*>` match here (`l` is the text at a start-of-line position)?
Backtracking of the greedy `\s*` succeeds exactly when the maximal whitespace
run is followed by `>` (whitespace characters are never `>`). -/
def bqHit (l : List Char) : Bool :=
  match l.drop (l.takeWhile isSpaceChar).length with
  | '>' :: _ => true
  | _ => false

/-- Length of the `^\s*>.*$` match at a start-of-line position: the
whitespace run, the `>`, then `.*` up to (not including) the next newline. -/
def bqLen (l : List Char) : Nat :=
  (l.takeWhile isSpaceChar).length + 1 +
    ((l.drop ((l.takeWhile isSpaceChar).length + 1)).takeWhile
      (fun d => !(d = '\n'))).length

/-- `BLOCKQUOTE_PATTERN.sub(spaces, text)` with `re.MULTILINE`: `^` matches at
the start of the text and after each newline; the flag records whether the
current position is such a position.  The match runs to the end of the line
(`.*$`, dot not matching newline), and the scan resumes at the terminating
newline, which is not itself a `^` position. -/
def blankBlockquotesGo : Nat → Bool → List Char → List Char
  | 0, _, l => l
  | _ + 1, _, [] => []
  | fuel + 1, atLineStart, c :: rest =>
    if atLineStart ∧ bqHit (c :: rest) then
      List.replicate (bqLen (c :: rest)) ' ' ++
        blankBlockquotesGo fuel false ((c :: rest).drop (bqLen (c :: rest)))
    else
      c :: blankBlockquotesGo fuel (c = '\n') rest

def blankBlockquotes (atLineStart : Bool) (l : List Char) : List Char :=
  blankBlockquotesGo l.length atLineStart l

/-- The preprocessing of `extract_all_mentions`: blank code blocks, then
inline code, then blockquote lines. -/
def processedText (l : List Char) : List Char :=
  blankBlockquotes true (blankInlineCode (blankCodeBlocks l))

/-! ### `GITHUB_MENTION_PATTERN` and `extract_all_mentions`

```
GITHUB_MENTION_PATTERN = re.compile(
    r"(?:^|(?<=\s))@([a-z\d](?:[a-z\d]|-(?=[a-z\d])){0,38})",
    re.MULTILINE | re.IGNORECASE,
)
```

With `MULTILINE`, `^` matches at the start of the text or after a newline; a
newline is itself `\s`, so `^|(?<=\s)` holds exactly at position 0 or after a
whitespace character.  The captured group is greedy and nothing follows it in
the pattern, so the match is the maximal scan: a first `[a-z\d]` character,
then up to 38 further items, each either one `[a-z\d]` character or a hyphen
whose successor is `[a-z\d]` (the lookahead consumes nothing).  `finditer`
resumes scanning at the end of each match.

The Python `re.Match` object stored in `RawMention.match` is determined by
the other three fields (it is the match at `position`); it is omitted here. -/

structure RawMention where
  username : List Char
  position : Nat
  endPos : Nat
deriving Repr, DecidableEq

/-- The greedy `(?:[a-z\d]|-(?=[a-z\d])){0,38}` scan with remaining budget
`b`. -/
def scanUserTail : List Char → Nat → List Char
  | _, 0 => []
  | [], _ => []
  | c :: rest, Nat.succ b =>
    if isUserChar c then c :: scanUserTail rest b
    else if c = '-' then
      match rest with
      | d :: _ => if isUserChar d then c :: scanUserTail rest b else []
      | [] => []
    else []

/-- `(?:^|(?<=\s))`: the previous character (`none` at the start of the
text). -/
def canStart (prev : Option Char) : Bool :=
  match prev with
  | none => true
  | some p => isSpaceChar p

/-- The `finditer` loop of `GITHUB_MENTION_PATTERN` over the processed text.
`pos` is the absolute position of the head of `l` and `prev` the character
before it. -/
def scanMentionsGo : Nat → List Char → Nat → Option Char → List RawMention
  | 0, _, _, _ => []
  | _ + 1, [], _, _ => []
  | fuel + 1, '@' :: d :: tail, pos, prev =>
    if canStart prev ∧ isUserChar d then
      let tailU := scanUserTail tail 38
      let uname := d :: tailU
      { username := uname, position := pos,
        endPos := pos + 1 + uname.length } ::
        scanMentionsGo fuel (tail.drop tailU.length) (pos + 1 + uname.length)
          (some (uname.getLast?.getD d))
    else
      scanMentionsGo fuel (d :: tail) (pos + 1) (some '@')
  | fuel + 1, c :: rest, pos, _ => scanMentionsGo fuel rest (pos + 1) (some c)

def scanMentions (l : List Char) (pos : Nat) (prev : Option Char) :
    List RawMention :=
  scanMentionsGo l.length l pos prev

/-- `extract_all_mentions(text)`: blank code blocks, inline code and
blockquotes, then collect all matches of `GITHUB_MENTION_PATTERN`. -/
def extract_all_mentions (text : List Char) : List RawMention :=
  scanMentions (processedText text) 0 none

/-! ### `LineInfo`, `extract_mention_text`, pattern matching -/

/-- Python `str.strip()` on ASCII text. -/
def stripChars (l : List Char) : List Char :=
  ((l.dropWhile isSpaceChar).reverse.dropWhile isSpaceChar).reverse

/-- Python `str.lower()` on ASCII text. -/
def lowerChars (l : List Char) : List Char :=
  l.map Char.toLower

/-- An ASCII line boundary recognised by Python `str.splitlines()`. -/
def isLineBreak (c : Char) : Bool :=
  c = '\n' || c = '\r' || c = '\x0b' || c = '\x0c'

/-- Accumulator loop for `splitlines`: a line terminator ends the current
line, and a terminator at the very end of the text does not open a new
line. -/
def splitlinesGo (acc : List Char) : List Char → List (List Char)
  | [] => [acc.reverse]
  | '\r' :: '\n' :: r =>
    acc.reverse :: (match r with | [] => [] | _ => splitlinesGo [] r)
  | c :: r =>
    if isLineBreak c then
      acc.reverse :: (match r with | [] => [] | _ => splitlinesGo [] r)
    else
      splitlinesGo (c :: acc) r

/-- Python `str.splitlines()` on ASCII text (`\r\n` counts as one
boundary). -/
def splitlines (l : List Char) : List (List Char) :=
  match l with
  | [] => []
  | _ => splitlinesGo [] l

structure LineInfo where
  lineno : Nat
  text : List Char
deriving Repr, DecidableEq

/-- `LineInfo.for_mention_in_comment`. -/
def LineInfo.for_mention_in_comment (comment : List Char)
    (mention_position : Nat) : LineInfo :=
  let lines := splitlines comment
  let text_before := comment.take mention_position
  let line_number := text_before.count '\n' + 1
  let line_index := line_number - 1
  { lineno := line_number, text := (lines.get? line_index).getD [] }

/-- `extract_mention_text(body, current_index, all_mentions, mention_end)`:
the Python loop takes the first index after `current_index` in the *full*
raw-mention list; the trailing text runs from `mention_end` to that mention's
position (or the end of the body) and is stripped. -/
def extract_mention_text (body : List Char) (current_index : Nat)
    (all_mentions : List RawMention) (mention_end : Nat) : List Char :=
  let text_end :=
    match all_mentions.drop (current_index + 1) with
    | m :: _ => m.position
    | [] => body.length
  stripChars ((body.take text_end).drop mention_end)

/-- A Python `re.Match` as far as the code observes it: the matched text and
the captured groups. -/
structure MatchData where
  matched : List Char
  groups : List (Option (List Char))
deriving Repr, DecidableEq

/-- A compiled `re.Pattern` as far as the code observes it: the code only
ever calls `.fullmatch(text)` and `.match(text)` on a user-supplied compiled
pattern, so the pattern's own flags are honoured by construction. -/
structure CompiledRegex where
  fullmatchFn : List Char → Option MatchData
  matchFn : List Char → Option MatchData

/-- A `str | re.Pattern[str]` pattern argument. -/
inductive UserPattern where
  | str (s : List Char)
  | regex (r : CompiledRegex)

/-- `matches_pattern(text, pattern)`. -/
def matches_pattern (text : List Char) (pattern : Option UserPattern) :
    Bool :=
  match pattern with
  | none => true
  | some (.regex r) => (r.fullmatchFn text).isSome
  | some (.str s) => lowerChars (stripChars text) == lowerChars (stripChars s)

/-- `get_match(text, pattern)`.  For `None` the code runs
`re.match(r"(.*)", text, re.IGNORECASE | re.DOTALL)`, which matches the whole
text with the whole text as group 1.  For a string the code runs
`re.match(re.escape(pattern), text, re.IGNORECASE)`: a case-insensitive
literal prefix match with no groups. -/
def get_match (text : List Char) (pattern : Option UserPattern) :
    Option MatchData :=
  match pattern with
  | none => some { matched := text, groups := [some text] }
  | some (.regex r) => r.matchFn text
  | some (.str s) =>
    if lowerChars (text.take s.length) == lowerChars s then
      some { matched := text.take s.length, groups := [] }
    else none

/-! ### Webhook events and `extract_mentions_from_event`

A `sansio.Event` carries a JSON payload dict.  Each optional object field is
modelled as `Option (Option _)`: `none` = key absent, `some none` = JSON
null, `some (some x)` = value present.  The `issue` object is modelled as
absent-or-object (GitHub sends an object for `issue_comment` events; the code
reads it with `event.data.get("issue", {})`). -/

structure UserObj where
  login : Option (Option (List Char))
deriving Repr, DecidableEq

structure IssueObj where
  pull_request : Option (Option Unit)
deriving Repr, DecidableEq

structure CommentObj where
  body : Option (Option (List Char))
  user : Option (Option UserObj)
deriving Repr, DecidableEq

structure RepositoryObj where
  owner : Option (Option UserObj)
  name : Option (Option (List Char))
deriving Repr, DecidableEq

structure GhEvent where
  event : String
  comment : Option (Option CommentObj)
  issue : Option IssueObj
  repository : Option (Option RepositoryObj)
deriving Repr, DecidableEq

/-- `ParsedMention`.  The Python `previous_mention`/`next_mention` fields
hold object references into the returned list (a doubly linked chain over
Python objects); an acyclic embedding stores the *index* of the linked
mention in the returned list instead.  `matchRes` is the Python `match`
field (`match` is a Lean keyword). -/
structure ParsedMention where
  username : List Char
  text : List Char
  position : Nat
  line_info : LineInfo
  matchRes : Option MatchData := none
  previous_mention : Option Nat := none
  next_mention : Option Nat := none
deriving Repr, DecidableEq

/-- The link-assignment loop at the end of `extract_mentions_from_event`:
`mentions[i].previous_mention = mentions[i-1]` for `i > 0` and
`mentions[i].next_mention = mentions[i+1]` for `i < len(mentions) - 1`. -/
def linkMentions (ms : List ParsedMention) : List ParsedMention :=
  ms.mapIdx fun i m =>
    { m with
      previous_mention := if i > 0 then some (i - 1) else none,
      next_mention := if i < ms.length - 1 then some (i + 1) else none }

/-- `event.data.get("comment", {}).get("body", "")` collapsed over Python
falsiness: a missing `comment`, null `comment`, missing `body` or null
`body` all lead to the `if not comment: return []` branch, exactly as the
empty string does. -/
def eventCommentBody (ev : GhEvent) : List Char :=
  match ev.comment with
  | some (some c) =>
    match c.body with
    | some (some b) => b
    | _ => []
  | _ => []

/-- `extract_mentions_from_event(event, username_pattern)`.  A
missing/null/empty body short-circuits to `[]`.  When
`username_pattern is None` the code substitutes the placeholder string
`"bot"`.  The `for`/`continue` loop over `enumerate(potential_mentions)` is
a `filterMap` over the enumerated raw-mention list; note it passes the raw
index `i` and the *full* `potential_mentions` list to
`extract_mention_text`. -/
def extract_mentions_from_event (ev : GhEvent)
    (username_pattern : Option UserPattern) : List ParsedMention :=
  let body : List Char := eventCommentBody ev
  if body = [] then []
  else
    let pat : UserPattern := username_pattern.getD (.str "bot".toList)
    let potential := extract_all_mentions body
    linkMentions <| potential.enum.filterMap fun p =>
      if matches_pattern p.2.username (some pat) then
        some { username := p.2.username,
               text := extract_mention_text body p.1 potential p.2.endPos,
               position := p.2.position,
               line_info := LineInfo.for_mention_in_comment body p.2.position,
               matchRes := none,
               previous_mention := none,
               next_mention := none }
      else none

/-! ### `MentionScope` -/

structure EventAction where
  event : String
  action : String
deriving Repr, DecidableEq

inductive MentionScope where
  | COMMIT
  | ISSUE
  | PR
deriving Repr, DecidableEq

/-- `MentionScope.get_events`. -/
def MentionScope.get_events : MentionScope → List EventAction
  | .ISSUE => [⟨"issue_comment", "created"⟩]
  | .PR =>
    [⟨"issue_comment", "created"⟩,
     ⟨"pull_request_review_comment", "created"⟩,
     ⟨"pull_request_review", "submitted"⟩]
  | .COMMIT => [⟨"commit_comment", "created"⟩]

/-- `for scope in cls` iterates the enum members in declaration order. -/
def MentionScope.members : List MentionScope :=
  [.COMMIT, .ISSUE, .PR]

/-- `MentionScope.from_event`.  For `issue_comment` the code reads
`event.data.get("issue", {})` and tests
`"pull_request" in issue and issue["pull_request"] is not None`; otherwise it
returns the first scope whose `get_events` mentions the event type, else
`None`. -/
def MentionScope.from_event (ev : GhEvent) : Option MentionScope :=
  if ev.event = "issue_comment" then
    let is_pull_request :=
      match ev.issue with
      | some issue =>
        match issue.pull_request with
        | some (some _) => true
        | _ => false
      | none => false
    some (if is_pull_request then .PR else .ISSUE)
  else
    MentionScope.members.find? fun scope =>
      scope.get_events.any fun ea => ea.event = ev.event

/-! ### `permissions.py`

`gh.getitem` is modelled as an oracle from request URLs to results: either a
JSON object (`GhData`, exposing the two keys the code reads) or an HTTP error
with a status code (`gidgethub.HTTPException.status_code`).  Each function
additionally returns the updated cache and the list of URLs requested, in
order, so that "no network call" is the statement that the list is empty.
The global `cachetools.LRUCache(maxsize=128)` is modelled as an unbounded
association list (LRU eviction is library behaviour the claims do not
touch); assignment replaces the value stored for the key.  A propagating
Python exception (`ValueError` from `Permission.from_string`, `KeyError` /
`TypeError` from subscripting) is an `Except.error`; on that path the cache
write is never reached. -/

inductive Permission where
  | NONE
  | READ
  | TRIAGE
  | WRITE
  | MAINTAIN
  | ADMIN
deriving Repr, DecidableEq

/-- The `int` value of each `Permission` member. -/
def Permission.value : Permission → Nat
  | .NONE => 0
  | .READ => 1
  | .TRIAGE => 2
  | .WRITE => 3
  | .MAINTAIN => 4
  | .ADMIN => 5

/-- The `.name` of each `Permission` member. -/
def Permission.pyName : Permission → List Char
  | .NONE => "NONE".toList
  | .READ => "READ".toList
  | .TRIAGE => "TRIAGE".toList
  | .WRITE => "WRITE".toList
  | .MAINTAIN => "MAINTAIN".toList
  | .ADMIN => "ADMIN".toList

/-- `Permission.from_string`: normalise with `.lower().strip()`, look up in
the permission map, raise `ValueError` when absent. -/
def Permission.from_string (permission : List Char) :
    Except (List Char) Permission :=
  let normalized := stripChars (lowerChars permission)
  if normalized = "none".toList then .ok .NONE
  else if normalized = "read".toList then .ok .READ
  else if normalized = "triage".toList then .ok .TRIAGE
  else if normalized = "write".toList then .ok .WRITE
  else if normalized = "maintain".toList then .ok .MAINTAIN
  else if normalized = "admin".toList then .ok .ADMIN
  else .error ("Unknown permission level: ".toList ++ permission)

structure PermissionCacheKey where
  owner : List Char
  repo : List Char
  username : List Char
deriving Repr, DecidableEq

abbrev PermCache := List (PermissionCacheKey × Permission)

/-- `cache_key in cache` / `cache[cache_key]`. -/
def cacheLookup (cache : PermCache) (k : PermissionCacheKey) :
    Option Permission :=
  (cache.find? fun p => p.1 = k).map (·.2)

/-- `cache[cache_key] = permission`. -/
def cacheInsert (cache : PermCache) (k : PermissionCacheKey)
    (v : Permission) : PermCache :=
  (k, v) :: cache.filter fun p => ¬p.1 = k

/-- A JSON object returned by `gh.getitem`, exposing the keys the code
reads: `data.get("permission", "none")` and `repo_data.get("private", True)`
(`isPrivate` names the `private` key; `private` is a Lean keyword). -/
structure GhData where
  permission : Option (List Char)
  isPrivate : Option Bool
deriving Repr, DecidableEq

/-- Outcome of one `gh.getitem` call. -/
inductive GhResult where
  | ok (data : GhData)
  | httpError (status : Nat)
deriving Repr, DecidableEq

/-- `f"/repos/{owner}/{repo}/collaborators/{username}/permission"`. -/
def permissionUrl (owner repo username : List Char) : List Char :=
  "/repos/".toList ++ owner ++ "/".toList ++ repo ++
    "/collaborators/".toList ++ username ++ "/permission".toList

/-- `f"/repos/{owner}/{repo}"`. -/
def repoUrl (owner repo : List Char) : List Char :=
  "/repos/".toList ++ owner ++ "/".toList ++ repo

/-- `get_user_permission(gh, owner, repo, username)`: result, updated cache,
and the URLs requested. -/
def get_user_permission (gh : List Char → GhResult) (cache : PermCache)
    (owner repo username : List Char) :
    Except (List Char) Permission × PermCache × List (List Char) :=
  let cache_key : PermissionCacheKey := ⟨owner, repo, username⟩
  match cacheLookup cache cache_key with
  | some p => (.ok p, cache, [])
  | none =>
    let url1 := permissionUrl owner repo username
    match gh url1 with
    | .ok data =>
      let permission_str := data.permission.getD "none".toList
      match Permission.from_string permission_str with
      | .ok p => (.ok p, cacheInsert cache cache_key p, [url1])
      | .error e => (.error e, cache, [url1])
    | .httpError status =>
      if status = 404 then
        let url2 := repoUrl owner repo
        match gh url2 with
        | .ok repo_data =>
          let p := if repo_data.isPrivate.getD true then Permission.NONE
                   else Permission.READ
          (.ok p, cacheInsert cache cache_key p, [url1, url2])
        | .httpError _ =>
          (.ok .NONE, cacheInsert cache cache_key .NONE, [url1, url2])
      else
        (.ok .NONE, cacheInsert cache cache_key .NONE, [url1])

/-- `aget_user_permission(gh, owner, repo, username)`: the `async` twin of
`get_user_permission`, line for line the same control flow. -/
def aget_user_permission (gh : List Char → GhResult) (cache : PermCache)
    (owner repo username : List Char) :
    Except (List Char) Permission × PermCache × List (List Char) :=
  let cache_key : PermissionCacheKey := ⟨owner, repo, username⟩
  match cacheLookup cache cache_key with
  | some p => (.ok p, cache, [])
  | none =>
    let url1 := permissionUrl owner repo username
    match gh url1 with
    | .ok data =>
      let permission_str := data.permission.getD "none".toList
      match Permission.from_string permission_str with
      | .ok p => (.ok p, cacheInsert cache cache_key p, [url1])
      | .error e => (.error e, cache, [url1])
    | .httpError status =>
      if status = 404 then
        let url2 := repoUrl owner repo
        match gh url2 with
        | .ok repo_data =>
          let p := if repo_data.isPrivate.getD true then Permission.NONE
                   else Permission.READ
          (.ok p, cacheInsert cache cache_key p, [url1, url2])
        | .httpError _ =>
          (.ok .NONE, cacheInsert cache cache_key .NONE, [url1, url2])
      else
        (.ok .NONE, cacheInsert cache cache_key .NONE, [url1])

structure EventInfo where
  comment_author : Option (List Char)
  owner : Option (List Char)
  repo : Option (List Char)
deriving Repr, DecidableEq

/-- `EventInfo.from_event`.  `if "comment" in event.data:` is true also for
a JSON-null value; the subsequent `event.data["comment"]["user"]["login"]`
subscripts raise `TypeError` on `None` and `KeyError` on a missing key, and
likewise for `event.data["repository"]["owner"]["login"]` and
`event.data["repository"]["name"]`. -/
def EventInfo.from_event (ev : GhEvent) : Except (List Char) EventInfo := do
  let comment_author : Option (List Char) ←
    match ev.comment with
    | none => pure none
    | some none => throw "TypeError: NoneType is not subscriptable".toList
    | some (some c) =>
      match c.user with
      | none => throw "KeyError: user".toList
      | some none => throw "TypeError: NoneType is not subscriptable".toList
      | some (some u) =>
        match u.login with
        | none => throw "KeyError: login".toList
        | some lg => pure lg
  match ev.repository with
  | none => pure ⟨comment_author, none, none⟩
  | some none => throw "TypeError: NoneType is not subscriptable".toList
  | some (some r) => do
    let owner : Option (List Char) ←
      match r.owner with
      | none => throw "KeyError: owner".toList
      | some none => throw "TypeError: NoneType is not subscriptable".toList
      | some (some u) =>
        match u.login with
        | none => throw "KeyError: login".toList
        | some lg => pure lg
    let repo : Option (List Char) ←
      match r.name with
      | none => throw "KeyError: name".toList
      | some nm => pure nm
    pure ⟨comment_author, owner, repo⟩

structure PermissionCheck where
  has_permission : Bool
  error_message : Option (List Char)
deriving Repr, DecidableEq

/-- `PERMISSION_CHECK_ERROR_MESSAGE.format(...)`. -/
def permissionCheckErrorMessage
    (comment_author required_permission user_permission : List Char) :
    List Char :=
  "\n❌ **Permission Denied**\n\n@".toList ++ comment_author ++
    ", you need at least **".toList ++ required_permission ++
    "** permission to use this command.\n\nYour current permission level: **".toList ++
    user_permission ++ "**\n".toList

/-- Python truthiness of an optional string: `None` and `""` are falsy. -/
def truthyStr : Option (List Char) → Bool
  | none => false
  | some s => !(s = [])

/-- `check_mention_permission(event, gh, required_permission)`: result,
updated cache, URLs requested. -/
def check_mention_permission (ev : GhEvent) (gh : List Char → GhResult)
    (cache : PermCache) (required_permission : Permission) :
    Except (List Char) (PermissionCheck × PermCache × List (List Char)) := do
  let info ← EventInfo.from_event ev
  if truthyStr info.comment_author ∧ truthyStr info.owner ∧
      truthyStr info.repo then
    let ca := info.comment_author.getD []
    let ow := info.owner.getD []
    let rp := info.repo.getD []
    match get_user_permission gh cache ow rp ca with
    | (.ok user_permission, cache2, log) =>
      if user_permission.value ≥ required_permission.value then
        pure (⟨true, none⟩, cache2, log)
      else
        pure (⟨false, some (permissionCheckErrorMessage ca
          (lowerChars required_permission.pyName)
          (lowerChars user_permission.pyName))⟩, cache2, log)
    | (.error e, _, _) => throw e
  else
    pure (⟨false, none⟩, cache, [])

/-- `acheck_mention_permission(event, gh, required_permission)`: the `async`
twin, line for line the same control flow calling `aget_user_permission`. -/
def acheck_mention_permission (ev : GhEvent) (gh : List Char → GhResult)
    (cache : PermCache) (required_permission : Permission) :
    Except (List Char) (PermissionCheck × PermCache × List (List Char)) := do
  let info ← EventInfo.from_event ev
  if truthyStr info.comment_author ∧ truthyStr info.owner ∧
      truthyStr info.repo then
    let ca := info.comment_author.getD []
    let ow := info.owner.getD []
    let rp := info.repo.getD []
    match aget_user_permission gh cache ow rp ca with
    | (.ok user_permission, cache2, log) =>
      if user_permission.value ≥ required_permission.value then
        pure (⟨true, none⟩, cache2, log)
      else
        pure (⟨false, some (permissionCheckErrorMessage ca
          (lowerChars required_permission.pyName)
          (lowerChars user_permission.pyName))⟩, cache2, log)
    | (.error e, _, _) => throw e
  else
    pure (⟨false, none⟩, cache, [])

/-! ## Concrete pattern objects used in the claims -/

/-- `re.compile(r"deploy", re.IGNORECASE)`-style pattern: a case-insensitive
literal, as observed through `.fullmatch` and `.match` (anchored at the
start, no capture groups). -/
def ciLiteral (s : List Char) : CompiledRegex where
  fullmatchFn t :=
    if lowerChars t = lowerChars s then some ⟨t, []⟩ else none
  matchFn t :=
    if lowerChars (t.take s.length) = lowerChars s then
      some ⟨t.take s.length, []⟩
    else none

/-- `re.compile(r"(deploy)", re.IGNORECASE)`-style pattern: as `ciLiteral`
but capturing the matched text as group 1. -/
def ciLiteralGrp (s : List Char) : CompiledRegex where
  fullmatchFn t :=
    if lowerChars t = lowerChars s then some ⟨t, [some t]⟩ else none
  matchFn t :=
    if lowerChars (t.take s.length) = lowerChars s then
      some ⟨t.take s.length, [some (t.take s.length)]⟩
    else none

end DGA

namespace DGA

/-! ## Claims -/

/-- C3: `extract_all_mentions` implements the GitHub username grammar
exactly on these inputs: `"@-invalid"` yields no mention; `"@invalid-"`
yields username `"invalid"` only; `"@in--valid"` yields username `"in"`
only; an `@`-token longer than 39 valid characters yields the first 39
valid characters (truncated, not rejected); `"@123"` is a valid mention;
`"@user_name"` yields username `"user"`; `"@@double"` yields no mention;
`"email@example.com"` yields no mention. -/
theorem C3_username_grammar :
    extract_all_mentions "@-invalid".toList = [] ∧
    extract_all_mentions "@invalid-".toList = [⟨"invalid".toList, 0, 8⟩] ∧
    extract_all_mentions "@in--valid".toList = [⟨"in".toList, 0, 3⟩] ∧
    extract_all_mentions
        "@toolongusernamethatexceedsthirtyninecharacters".toList =
      [⟨"toolongusernamethatexceedsthirtyninecha".toList, 0, 40⟩] ∧
    "toolongusernamethatexceedsthirtyninecha".toList =
      "toolongusernamethatexceedsthirtyninecharacters".toList.take 39 ∧
    extract_all_mentions "@123".toList = [⟨"123".toList, 0, 4⟩] ∧
    extract_all_mentions "@user_name".toList = [⟨"user".toList, 0, 5⟩] ∧
    extract_all_mentions "@@double".toList = [] ∧
    extract_all_mentions "email@example.com".toList = [] :=
  ⟨rfl, rfl, rfl, rfl, rfl, rfl, rfl, rfl, rfl⟩

/-- C6: scope classification is total and follows these rules for every
event: `issue_comment` maps to PR when `issue.pull_request` is present and
non-null and to ISSUE otherwise; `pull_request_review_comment` and
`pull_request_review` map to PR; `commit_comment` maps to COMMIT; every
other event type maps to `None`. -/
theorem C6_scope_classification (ev : GhEvent) :
    MentionScope.from_event ev =
      (if ev.event = "issue_comment" then
        some (if ev.issue.elim false (fun issue =>
                  issue.pull_request.elim false Option.isSome) then
                MentionScope.PR
              else MentionScope.ISSUE)
       else if ev.event = "pull_request_review_comment" then
         some MentionScope.PR
       else if ev.event = "pull_request_review" then some MentionScope.PR
       else if ev.event = "commit_comment" then some MentionScope.COMMIT
       else none) := by
  unfold MentionScope.from_event
  by_cases h1 : ev.event = "issue_comment"
  · simp only [h1, if_true, reduceIte]
    cases hiss : ev.issue with
    | none => simp
    | some issue =>
      cases hpr : issue.pull_request with
      | none => simp [hpr]
      | some pr => cases pr <;> simp [hpr]
  · simp only [h1, if_false, reduceIte]
    by_cases h2 : ev.event = "pull_request_review_comment"
    · simp [h2, MentionScope.members, MentionScope.get_events, List.find?]
    · by_cases h3 : ev.event = "pull_request_review"
      · simp [h3, MentionScope.members, MentionScope.get_events, List.find?]
      · by_cases h4 : ev.event = "commit_comment"
        · simp [h4, MentionScope.members, MentionScope.get_events,
            List.find?]
        · simp [MentionScope.members, MentionScope.get_events, List.find?,
            h1, h2, h3, h4, Ne.symm h1, Ne.symm h2, Ne.symm h3, Ne.symm h4]

/-- C7: the username variant (`matches_pattern`) with a string pattern is
case-insensitive whitespace-stripped full equality (`"deploy"` does not
match `"deployer"`); with a compiled regex it requires a full match with the
regex's own flags.  The content variant (`get_match`) with a string pattern
is a start-anchored case-insensitive literal-escaped prefix match
(`"deploy"` matches `"deploy prod"`); with a compiled regex it is a
start-anchored match using the regex unmodified, preserving captured
groups. -/
theorem C7_pattern_variants :
    (∀ text s, matches_pattern text (some (.str s)) =
      (lowerChars (stripChars text) == lowerChars (stripChars s))) ∧
    matches_pattern "deployer".toList (some (.str "deploy".toList)) =
      false ∧
    (∀ text r, matches_pattern text (some (.regex r)) =
      (r.fullmatchFn text).isSome) ∧
    matches_pattern "DEPLOY".toList
      (some (.regex (ciLiteral "deploy".toList))) = true ∧
    matches_pattern "deployer".toList
      (some (.regex (ciLiteral "deploy".toList))) = false ∧
    (∀ text s, get_match text (some (.str s)) =
      (if lowerChars (text.take s.length) == lowerChars s then
        some ⟨text.take s.length, []⟩
       else none)) ∧
    get_match "deploy prod".toList (some (.str "deploy".toList)) =
      some ⟨"deploy".toList, []⟩ ∧
    get_match "deployer".toList (some (.str "deploy".toList)) =
      some ⟨"deploy".toList, []⟩ ∧
    (∀ text r, get_match text (some (.regex r)) = r.matchFn text) ∧
    get_match "DEPLOY prod".toList
      (some (.regex (ciLiteralGrp "deploy".toList))) =
      some ⟨"DEPLOY".toList, [some "DEPLOY".toList]⟩ :=
  ⟨fun _ _ => rfl, rfl, fun _ _ => rfl, rfl, rfl, fun _ _ => rfl, rfl, rfl,
   fun _ _ => rfl, rfl⟩

/-- C5: `get_user_permission` (and its async twin) implements exactly: on a
cache hit return the cached permission with no network call; on a miss,
fetch the collaborator permission and parse it case-insensitively/trimmed
(`ValueError` on an unrecognised string, with no cache write on that path);
on HTTP 404, fetch the repo and grant READ iff that succeeds with
`private == false`, otherwise NONE; on any non-404 HTTP error grant NONE
without raising; and on every non-raising path write the resolved value
(including NONE) to the cache before returning. -/
theorem C5_get_user_permission (gh : List Char → GhResult)
    (cache : PermCache) (owner repo username : List Char) :
    (∀ p, cacheLookup cache ⟨owner, repo, username⟩ = some p →
      get_user_permission gh cache owner repo username = (.ok p, cache, [])) ∧
    (∀ d, cacheLookup cache ⟨owner, repo, username⟩ = none →
      gh (permissionUrl owner repo username) = .ok d →
      get_user_permission gh cache owner repo username =
        (match Permission.from_string (d.permission.getD "none".toList) with
         | .ok p =>
           (.ok p, cacheInsert cache ⟨owner, repo, username⟩ p,
            [permissionUrl owner repo username])
         | .error e =>
           (.error e, cache, [permissionUrl owner repo username]))) ∧
    (∀ d, cacheLookup cache ⟨owner, repo, username⟩ = none →
      gh (permissionUrl owner repo username) = .httpError 404 →
      gh (repoUrl owner repo) = .ok d →
      get_user_permission gh cache owner repo username =
        (if d.isPrivate.getD true then
          (.ok Permission.NONE,
           cacheInsert cache ⟨owner, repo, username⟩ .NONE,
           [permissionUrl owner repo username, repoUrl owner repo])
         else
          (.ok Permission.READ,
           cacheInsert cache ⟨owner, repo, username⟩ .READ,
           [permissionUrl owner repo username, repoUrl owner repo]))) ∧
    (∀ s, cacheLookup cache ⟨owner, repo, username⟩ = none →
      gh (permissionUrl owner repo username) = .httpError 404 →
      gh (repoUrl owner repo) = .httpError s →
      get_user_permission gh cache owner repo username =
        (.ok Permission.NONE,
         cacheInsert cache ⟨owner, repo, username⟩ .NONE,
         [permissionUrl owner repo username, repoUrl owner repo])) ∧
    (∀ s, cacheLookup cache ⟨owner, repo, username⟩ = none →
      gh (permissionUrl owner repo username) = .httpError s → s ≠ 404 →
      get_user_permission gh cache owner repo username =
        (.ok Permission.NONE,
         cacheInsert cache ⟨owner, repo, username⟩ .NONE,
         [permissionUrl owner repo username])) ∧
    Permission.from_string " Admin ".toList = .ok .ADMIN ∧
    Permission.from_string "WRITE".toList = .ok .WRITE ∧
    Permission.from_string "bogus".toList =
      .error "Unknown permission level: bogus".toList ∧
    aget_user_permission gh cache owner repo username =
      get_user_permission gh cache owner repo username := by
  refine ⟨?_, ?_, ?_, ?_, ?_, rfl, rfl, rfl, ?_⟩
  · intro p hp
    unfold get_user_permission
    simp only [hp]
  · intro d hmiss hok
    unfold get_user_permission
    simp only [hmiss, hok]
  · intro d hmiss h404 hok
    unfold get_user_permission
    simp only [hmiss, h404, hok, reduceIte]
    cases hp : d.isPrivate.getD true <;> simp [hp]
  · intro s hmiss h404 herr
    unfold get_user_permission
    simp only [hmiss, h404, herr, reduceIte]
  · intro s hmiss herr hne
    unfold get_user_permission
    simp only [hmiss, herr, hne, if_false, reduceIte]
  · unfold get_user_permission aget_user_permission
    rfl

/-! ### Helper lemmas about `linkMentions` and the filter loop -/

/-- Every element of `linkMentions ms` is an element of `ms` with only the
link fields changed. -/
theorem mem_linkMentions_payload (ms : List ParsedMention)
    (m : ParsedMention) (hm : m ∈ linkMentions ms) :
    ∃ m₀ ∈ ms, m₀.username = m.username ∧ m₀.text = m.text ∧
      m₀.position = m.position := by
  unfold linkMentions at hm
  rw [List.mapIdx_eq_enum_map] at hm
  obtain ⟨⟨i, m₀⟩, hmem, heq⟩ := List.mem_map.mp hm
  refine ⟨m₀, List.getElem?_mem (List.mem_enum_iff_getElem?.mp hmem), ?_⟩
  rw [← heq]
  exact ⟨rfl, rfl, rfl⟩

/-- Characterisation of the mentions that survive the username filter in
`extract_mentions_from_event`: each comes from a raw mention at some index
`i` of the full raw list, passes `matches_pattern`, and carries the trailing
text computed by `extract_mention_text` at that raw index. -/
theorem mem_extract_mentions_from_event (ev : GhEvent)
    (pat : Option UserPattern) (m : ParsedMention)
    (hm : m ∈ extract_mentions_from_event ev pat) :
    ∃ i rm,
      (extract_all_mentions (eventCommentBody ev))[i]? = some rm ∧
      matches_pattern rm.username
        (some (pat.getD (.str "bot".toList))) = true ∧
      m.username = rm.username ∧
      m.position = rm.position ∧
      m.text = extract_mention_text (eventCommentBody ev) i
        (extract_all_mentions (eventCommentBody ev)) rm.endPos := by
  unfold extract_mentions_from_event at hm
  by_cases hb : eventCommentBody ev = []
  · rw [if_pos hb] at hm
    exact absurd hm (List.not_mem_nil m)
  · rw [if_neg hb] at hm
    obtain ⟨m₀, hm₀, hu, ht, hp⟩ := mem_linkMentions_payload _ m hm
    obtain ⟨⟨i, rm⟩, hmem, heq⟩ := List.mem_filterMap.mp hm₀
    by_cases hmatch :
        matches_pattern rm.username (some (pat.getD (.str "bot".toList)))
    · rw [if_pos hmatch] at heq
      obtain rfl := Option.some_injective _ heq
      exact ⟨i, rm, List.mem_enum_iff_getElem?.mp hmem, hmatch,
        hu ▸ rfl, hp ▸ rfl, ht ▸ rfl⟩
    · rw [if_neg hmatch] at heq
      exact absurd heq (Option.noConfusion)

/-- Witness for C5 at concrete inputs: an oracle answering 404 for the
collaborator check and a public repo for the fallback, on an empty cache,
grants READ after two calls. -/
theorem C5_witness :
    get_user_permission
      (fun url => if url = repoUrl "o".toList "r".toList then
          .ok ⟨none, some false⟩
        else .httpError 404)
      [] "o".toList "r".toList "u".toList =
      (.ok Permission.READ,
       cacheInsert [] ⟨"o".toList, "r".toList, "u".toList⟩ .READ,
       [permissionUrl "o".toList "r".toList "u".toList,
        repoUrl "o".toList "r".toList]) := by
  have h := (C5_get_user_permission
    (fun url => if url = repoUrl "o".toList "r".toList then
        .ok ⟨none, some false⟩
      else .httpError 404)
    [] "o".toList "r".toList "u".toList).2.2.1
    ⟨none, some false⟩ rfl (by decide) (by decide)
  simpa using h

/-! ### Blanking preserves offsets: each pass only turns characters into
spaces, so lengths and the positions of untouched characters are
unchanged. -/

theorem findFence_bound (l : List Char) (k : Nat)
    (h : findFence l = some k) : k + 3 ≤ l.length := by
  induction l generalizing k with
  | nil => simp [findFence] at h
  | cons c rest ih =>
    rw [findFence] at h
    by_cases hf : startsWithFence (c :: rest) = true
    · rw [if_pos hf] at h
      obtain rfl : (0 : Nat) = k := Option.some_injective _ h
      have h2 : 2 ≤ rest.length := by
        unfold startsWithFence at hf
        split at hf
        · rename_i heq
          obtain ⟨-, h2⟩ := List.cons.injEq .. ▸ heq
          subst h2
          simp
        · exact absurd hf (by simp)
      simp only [List.length_cons]
      omega
    · rw [if_neg hf] at h
      obtain ⟨k2, hk2, rfl⟩ := Option.map_eq_some'.mp h
      have := ih k2 hk2
      simp only [List.length_cons]
      omega

theorem blankCodeBlocksGo_length (fuel : Nat) (l : List Char) :
    (blankCodeBlocksGo fuel l).length = l.length := by
  induction fuel, l using blankCodeBlocksGo.induct with
  | case1 l => rfl
  | case2 n => rfl
  | case3 fuel c rest hf k hk ih =>
    have hb := findFence_bound _ _ hk
    simp only [blankCodeBlocksGo, hf, hk, if_true]
    simp only [List.length_append, List.length_replicate, ih,
      List.length_drop, List.length_cons]
    simp only [List.length_drop] at hb
    omega
  | case4 fuel c rest hf hk =>
    simp [blankCodeBlocksGo, hf, hk]
  | case5 fuel c rest hf ih =>
    simp [blankCodeBlocksGo, hf, ih]

theorem blankCodeBlocksGo_pointwise (fuel : Nat) (l : List Char) (i : Nat) :
    (blankCodeBlocksGo fuel l)[i]? = l[i]? ∨
    (blankCodeBlocksGo fuel l)[i]? = some ' ' := by
  induction fuel, l using blankCodeBlocksGo.induct generalizing i with
  | case1 l => left; rfl
  | case2 n => left; rfl
  | case3 fuel c rest hf k hk ih =>
    simp only [blankCodeBlocksGo, hf, hk, if_true]
    by_cases hi : i < k + 6
    · right
      rw [List.getElem?_append]
      simp [List.getElem?_replicate, hi]
    · have hlen : (List.replicate (k + 6) ' ').length ≤ i := by
        simpa using Nat.le_of_not_lt hi
      rw [List.getElem?_append_right hlen]
      simp only [List.length_replicate]
      rcases ih (i - (k + 6)) with h | h
      · left
        rw [h, List.getElem?_drop]
        congr 1
        omega
      · right
        exact h
  | case4 fuel c rest hf hk =>
    left
    simp [blankCodeBlocksGo, hf, hk]
  | case5 fuel c rest hf ih =>
    simp only [blankCodeBlocksGo, hf]
    match i with
    | 0 =>
      left
      simp
    | i + 1 =>
      rcases ih i with h | h
      · left
        simpa using h
      · right
        simpa using h

theorem blankInlineCodeGo_length (fuel : Nat) (l : List Char) :
    (blankInlineCodeGo fuel l).length = l.length := by
  induction fuel, l using blankInlineCodeGo.induct with
  | case1 l => rfl
  | case2 n => rfl
  | case3 fuel rest inner hcond ih =>
    have hcond2 : (rest.takeWhile (fun d => !(d = '`'))).length ≥ 1 ∧
        (rest.takeWhile (fun d => !(d = '`'))).length < rest.length := hcond
    have hinner : inner = rest.takeWhile (fun d => !(d = '`')) := rfl
    rw [hinner] at ih
    simp only [blankInlineCodeGo, reduceIte]
    rw [if_pos hcond2]
    simp only [List.length_append, List.length_replicate, ih,
      List.length_drop, List.length_cons]
    omega
  | case4 fuel rest inner hcond ih =>
    have hcond2 : ¬((rest.takeWhile (fun d => !(d = '`'))).length ≥ 1 ∧
        (rest.takeWhile (fun d => !(d = '`'))).length < rest.length) := hcond
    simp only [blankInlineCodeGo, reduceIte]
    rw [if_neg hcond2]
    simp [ih]
  | case5 fuel c rest hc ih =>
    simp only [blankInlineCodeGo]
    rw [if_neg hc]
    simp [ih]

theorem blankInlineCodeGo_pointwise (fuel : Nat) (l : List Char)
    (i : Nat) :
    (blankInlineCodeGo fuel l)[i]? = l[i]? ∨
    (blankInlineCodeGo fuel l)[i]? = some ' ' := by
  induction fuel, l using blankInlineCodeGo.induct generalizing i with
  | case1 l => left; rfl
  | case2 n => left; rfl
  | case3 fuel rest inner hcond ih =>
    have hcond2 : (rest.takeWhile (fun d => !(d = '`'))).length ≥ 1 ∧
        (rest.takeWhile (fun d => !(d = '`'))).length < rest.length := hcond
    have hinner : inner = rest.takeWhile (fun d => !(d = '`')) := rfl
    rw [hinner] at ih
    simp only [blankInlineCodeGo, reduceIte]
    rw [if_pos hcond2]
    by_cases hi : i < (rest.takeWhile (fun d => !(d = '`'))).length + 2
    · right
      rw [List.getElem?_append]
      simp [List.getElem?_replicate, hi]
    · have hlen :
          (List.replicate ((rest.takeWhile (fun d => !(d = '`'))).length + 2)
            ' ').length ≤ i := by
        simpa using Nat.le_of_not_lt hi
      rw [List.getElem?_append_right hlen]
      simp only [List.length_replicate]
      rcases ih (i - ((rest.takeWhile (fun d => !(d = '`'))).length + 2))
        with h | h
      · left
        rw [h, List.getElem?_drop]
        have hi2 : 1 ≤ i := by simp at hlen; omega
        have hcons : ('`' :: rest)[i]? = rest[i - 1]? := by
          match i, hi2 with
          | i + 1, _ => simp
        rw [hcons]
        congr 1
        omega
      · right
        exact h
  | case4 fuel rest inner hcond ih =>
    have hcond2 : ¬((rest.takeWhile (fun d => !(d = '`'))).length ≥ 1 ∧
        (rest.takeWhile (fun d => !(d = '`'))).length < rest.length) := hcond
    simp only [blankInlineCodeGo, reduceIte]
    rw [if_neg hcond2]
    match i with
    | 0 =>
      left
      simp
    | i + 1 =>
      rcases ih i with h | h
      · left
        simpa using h
      · right
        simpa using h
  | case5 fuel c rest hc ih =>
    simp only [blankInlineCodeGo]
    rw [if_neg hc]
    match i with
    | 0 =>
      left
      simp
    | i + 1 =>
      rcases ih i with h | h
      · left
        simpa using h
      · right
        simpa using h

theorem bqLen_le (l : List Char) (h : bqHit l = true) :
    bqLen l ≤ l.length := by
  unfold bqHit at h
  unfold bqLen
  have hw : (l.takeWhile isSpaceChar).length ≤ l.length :=
    (List.takeWhile_prefix _).length_le
  have ht : ((l.drop ((l.takeWhile isSpaceChar).length + 1)).takeWhile
      (fun d => !(d = '\n'))).length ≤
      (l.drop ((l.takeWhile isSpaceChar).length + 1)).length :=
    (List.takeWhile_prefix _).length_le
  split at h
  · rename_i heq
    have hd := congrArg List.length heq
    simp only [List.length_drop, List.length_cons] at hd
    simp only [List.length_drop] at ht
    omega
  · exact absurd h (by simp)

theorem blankBlockquotesGo_length (fuel : Nat) (b : Bool)
    (l : List Char) :
    (blankBlockquotesGo fuel b l).length = l.length := by
  induction fuel, b, l using blankBlockquotesGo.induct with
  | case1 b l => rfl
  | case2 n b => rfl
  | case3 fuel b c rest hcond ih =>
    simp only [blankBlockquotesGo]
    rw [if_pos hcond]
    have hb := bqLen_le (c :: rest) hcond.2
    simp only [List.length_append, List.length_replicate, ih,
      List.length_drop]
    omega
  | case4 fuel b c rest hcond ih =>
    simp only [blankBlockquotesGo]
    rw [if_neg hcond]
    simp [ih]

theorem blankBlockquotesGo_pointwise (fuel : Nat) (b : Bool)
    (l : List Char) (i : Nat) :
    (blankBlockquotesGo fuel b l)[i]? = l[i]? ∨
    (blankBlockquotesGo fuel b l)[i]? = some ' ' := by
  induction fuel, b, l using blankBlockquotesGo.induct generalizing i with
  | case1 b l => left; rfl
  | case2 n b => left; rfl
  | case3 fuel b c rest hcond ih =>
    simp only [blankBlockquotesGo]
    rw [if_pos hcond]
    by_cases hi : i < bqLen (c :: rest)
    · right
      rw [List.getElem?_append]
      simp [List.getElem?_replicate, hi]
    · have hlen : (List.replicate (bqLen (c :: rest)) ' ').length ≤ i := by
        simpa using Nat.le_of_not_lt hi
      rw [List.getElem?_append_right hlen]
      simp only [List.length_replicate]
      rcases ih (i - bqLen (c :: rest)) with h | h
      · left
        rw [h, List.getElem?_drop]
        congr 1
        omega
      · right
        exact h
  | case4 fuel b c rest hcond ih =>
    simp only [blankBlockquotesGo]
    rw [if_neg hcond]
    match i with
    | 0 =>
      left
      simp
    | i + 1 =>
      rcases ih i with h | h
      · left
        simpa using h
      · right
        simpa using h

theorem processedText_length (l : List Char) :
    (processedText l).length = l.length := by
  unfold processedText blankBlockquotes blankInlineCode blankCodeBlocks
  rw [blankBlockquotesGo_length, blankInlineCodeGo_length,
    blankCodeBlocksGo_length]

theorem processedText_pointwise (l : List Char) (i : Nat) :
    (processedText l)[i]? = l[i]? ∨ (processedText l)[i]? = some ' ' := by
  unfold processedText blankBlockquotes blankInlineCode blankCodeBlocks
  rcases blankBlockquotesGo_pointwise
      (blankInlineCodeGo (blankCodeBlocksGo l.length l).length
        (blankCodeBlocksGo l.length l)).length true
      (blankInlineCodeGo (blankCodeBlocksGo l.length l).length
        (blankCodeBlocksGo l.length l)) i with h1 | h1
  · rw [h1]
    rcases blankInlineCodeGo_pointwise
        (blankCodeBlocksGo l.length l).length
        (blankCodeBlocksGo l.length l) i with h2 | h2
    · rw [h2]
      exact blankCodeBlocksGo_pointwise l.length l i
    · right
      exact h2
  · right
    exact h1

/-! ### The mention scanner returns spans of the processed text -/

theorem scanUserTail_zero (l : List Char) : scanUserTail l 0 = [] := by
  cases l <;> rfl

theorem scanUserTail_nil (b : Nat) : scanUserTail [] b = [] := by
  cases b <;> rfl

theorem scanUserTail_cons (c : Char) (rest : List Char) (b : Nat) :
    scanUserTail (c :: rest) (b + 1) =
      (if isUserChar c then c :: scanUserTail rest b
       else if c = '-' then
         match rest with
         | d :: _ => if isUserChar d then c :: scanUserTail rest b else []
         | [] => []
       else []) :=
  rfl

theorem scanUserTail_front (l : List Char) (b : Nat) :
    scanUserTail l b <+: l := by
  induction l, b using scanUserTail.induct with
  | case1 t =>
    rw [scanUserTail_zero]
    exact List.nil_prefix
  | case2 x h =>
    rw [scanUserTail_nil]
  | case3 c rest b hc ih =>
    rw [scanUserTail_cons, if_pos hc]
    exact List.cons_prefix_cons.mpr ⟨rfl, ih⟩
  | case4 b d tail hd hdash ih =>
    rw [scanUserTail_cons]
    simp only [hdash, if_false, reduceIte, hd, if_true]
    exact List.cons_prefix_cons.mpr ⟨rfl, ih⟩
  | case5 b d tail hd hdash =>
    rw [scanUserTail_cons]
    simp only [hdash, if_false, reduceIte, hd]
    exact List.nil_prefix
  | case6 b hdash =>
    rw [scanUserTail_cons]
    simp only [hdash, if_false, reduceIte]
    exact List.nil_prefix
  | case7 c rest b hc hdash =>
    rw [scanUserTail_cons]
    simp only [hc, hdash, if_false, reduceIte]
    exact List.nil_prefix

theorem scanUserTail_chars (l : List Char) (b : Nat) :
    ∀ c ∈ scanUserTail l b, isUserChar c = true ∨ c = '-' := by
  induction l, b using scanUserTail.induct with
  | case1 t =>
    rw [scanUserTail_zero]
    intro c hc
    exact absurd hc (List.not_mem_nil c)
  | case2 x h =>
    rw [scanUserTail_nil]
    intro c hc
    exact absurd hc (List.not_mem_nil c)
  | case3 c rest b hc ih =>
    rw [scanUserTail_cons, if_pos hc]
    intro x hx
    rcases List.mem_cons.mp hx with rfl | hx
    · exact Or.inl hc
    · exact ih x hx
  | case4 b d tail hd hdash ih =>
    rw [scanUserTail_cons]
    simp only [hdash, if_false, reduceIte, hd, if_true]
    intro x hx
    rcases List.mem_cons.mp hx with rfl | hx
    · exact Or.inr rfl
    · exact ih x hx
  | case5 b d tail hd hdash =>
    rw [scanUserTail_cons]
    simp only [hdash, if_false, reduceIte, hd]
    intro x hx
    exact absurd hx (List.not_mem_nil x)
  | case6 b hdash =>
    rw [scanUserTail_cons]
    simp only [hdash, if_false, reduceIte]
    intro x hx
    exact absurd hx (List.not_mem_nil x)
  | case7 c rest b hc hdash =>
    rw [scanUserTail_cons]
    simp only [hc, hdash, if_false, reduceIte]
    intro x hx
    exact absurd hx (List.not_mem_nil x)

/-- Every mention produced by the `finditer` loop lies at or after the scan
position, its `endPos` closes over `@` plus the username, its username
characters are alphanumerics or hyphens, and the span
`[position, endPos)` of the scanned text reads `@` followed by the
username. -/
theorem scanMentionsGo_spec (fuel : Nat) (l : List Char) (pos : Nat)
    (prev : Option Char) (m : RawMention)
    (hm : m ∈ scanMentionsGo fuel l pos prev) :
    pos ≤ m.position ∧
    m.endPos = m.position + 1 + m.username.length ∧
    (∀ c ∈ m.username, isUserChar c = true ∨ c = '-') ∧
    (l.drop (m.position - pos)).take (m.endPos - m.position) =
      '@' :: m.username := by
  induction fuel, l, pos, prev using scanMentionsGo.induct generalizing m with
  | case1 l pos prev => exact absurd hm (List.not_mem_nil m)
  | case2 n pos prev => exact absurd hm (List.not_mem_nil m)
  | case3 fuel d tail pos prev hcond tailU uname ih =>
    rw [scanMentionsGo, if_pos hcond] at hm
    rcases List.mem_cons.mp hm with rfl | hm2
    · refine ⟨Nat.le_refl pos, rfl, ?_, ?_⟩
      · intro c hc
        rcases List.mem_cons.mp hc with rfl | hc
        · exact Or.inl hcond.2
        · exact scanUserTail_chars tail 38 c hc
      · simp only [Nat.sub_self, List.drop_zero]
        have harith : pos + 1 + (d :: scanUserTail tail 38).length - pos =
            (scanUserTail tail 38).length + 1 + 1 := by
          simp only [List.length_cons]
          omega
        rw [harith, List.take_succ_cons, List.take_succ_cons,
          ← List.prefix_iff_eq_take.mp (scanUserTail_front tail 38)]
    · obtain ⟨h1, h2, h3, h4⟩ := ih m hm2
      have htailU : tailU = scanUserTail tail 38 := rfl
      have huname : uname = d :: tailU := rfl
      simp only [huname, htailU, List.length_cons] at h1 h4
      refine ⟨by omega, h2, h3, ?_⟩
      rw [← h4]
      congr 1
      rw [List.drop_drop]
      have hn : m.position - pos = (m.position - pos - 2) + 1 + 1 := by
        omega
      rw [hn, List.drop_succ_cons, List.drop_succ_cons]
      congr 1
      omega
  | case4 fuel d tail pos prev hcond ih =>
    rw [scanMentionsGo, if_neg hcond] at hm
    obtain ⟨h1, h2, h3, h4⟩ := ih m hm
    refine ⟨by omega, h2, h3, ?_⟩
    rw [← h4]
    congr 1
    have hn : m.position - pos = (m.position - (pos + 1)) + 1 := by
      omega
    rw [hn, List.drop_succ_cons]
  | case5 fuel c rest pos prev hne ih =>
    have hred : scanMentionsGo (fuel + 1) (c :: rest) pos prev =
        scanMentionsGo fuel rest (pos + 1) (some c) := by
      by_cases hc : c = '@'
      · subst hc
        match rest, hne with
        | [], _ => rfl
        | d :: tail, hne => exact absurd rfl (fun h => hne d tail rfl h)
      · conv_lhs => rw [scanMentionsGo.eq_def]
        split
        · rename_i heq
          exact absurd heq (by omega)
        · rename_i heqf heql
          simp at heql
        · rename_i heqf heql
          injection heql with h1 h2
          exact absurd h1 hc
        · rename_i heqf heql
          injection heqf with hf
          injection heql with h1 h2
          subst h1
          subst h2
          rw [hf]
    rw [hred] at hm
    obtain ⟨h1, h2, h3, h4⟩ := ih m hm
    refine ⟨by omega, h2, h3, ?_⟩
    rw [← h4]
    congr 1
    have hn : m.position - pos = (m.position - (pos + 1)) + 1 := by
      omega
    rw [hn, List.drop_succ_cons]


/-- C4: `extract_all_mentions` never returns a mention whose span lies
inside a fenced code block, an inline code span, or a blockquote line, and
for every mention it does return,
`text[position:end] == "@" + username` holds over the original unmodified
text.  Formally: the span of the *original* text reads `@` + username, and
at every index of the span the processed text agrees with the original and
is not a space — whereas every character the three blanking passes touch
reads as a space in the processed text (the passes replace their matches by
equal-length space runs, preserving all offsets, see
`processedText_length`/`processedText_pointwise`), so no span index lies
inside a blanked match. -/
theorem C4_blanking_safety (text : List Char) (m : RawMention)
    (hm : m ∈ extract_all_mentions text) :
    (text.drop m.position).take (m.endPos - m.position) =
      '@' :: m.username ∧
    (∀ i, m.position ≤ i → i < m.endPos →
      (processedText text)[i]? = text[i]? ∧
      (processedText text)[i]? ≠ some ' ') := by
  unfold extract_all_mentions scanMentions at hm
  obtain ⟨-, h2, h3, h4⟩ :=
    scanMentionsGo_spec (processedText text).length (processedText text)
      0 none m hm
  simp only [Nat.sub_zero] at h4
  have hn : m.endPos - m.position = ('@' :: m.username).length := by
    simp only [List.length_cons]
    omega
  have hproc : ∀ j, j < m.endPos - m.position →
      (processedText text)[m.position + j]? = ('@' :: m.username)[j]? := by
    intro j hj
    have h5 := congrArg (fun l => l[j]?) h4
    simp only [List.getElem?_take, hj, if_true, List.getElem?_drop] at h5
    exact h5
  have hchars : ∀ (j : Nat) (c : Char),
      ('@' :: m.username)[j]? = some c → c ≠ ' ' := by
    intro j c hc
    have hmem := List.getElem?_mem hc
    rcases List.mem_cons.mp hmem with rfl | hmem
    · decide
    · rcases h3 c hmem with hu | rfl
      · intro hceq
        subst hceq
        simp [isUserChar] at hu
      · decide
  have hagree : ∀ i, m.position ≤ i → i < m.endPos →
      (processedText text)[i]? = text[i]? ∧
      (processedText text)[i]? ≠ some ' ' := by
    intro i hi1 hi2
    have hj : i - m.position < m.endPos - m.position := by omega
    have hpj : (processedText text)[i]? =
        ('@' :: m.username)[i - m.position]? := by
      rw [← hproc (i - m.position) hj]
      congr 1
      omega
    have hjl : i - m.position < ('@' :: m.username).length := by
      rw [← hn]
      exact hj
    obtain hc := List.getElem?_eq_getElem hjl
    have hcne := hchars (i - m.position) _ hc
    refine ⟨?_, ?_⟩
    · rcases processedText_pointwise text i with hp | hp
      · exact hp
      · rw [hpj, hc] at hp
        exact absurd (Option.some_injective _ hp) hcne
    · rw [hpj, hc]
      intro hcontra
      exact hcne (Option.some_injective _ hcontra)
  refine ⟨?_, hagree⟩
  apply List.ext_getElem?
  intro j
  by_cases hj : j < m.endPos - m.position
  · rw [List.getElem?_take, if_pos hj, List.getElem?_drop]
    have hi1 : m.position ≤ m.position + j := Nat.le_add_right _ _
    have hi2 : m.position + j < m.endPos := by omega
    rw [← (hagree (m.position + j) hi1 hi2).1]
    exact hproc j hj
  · rw [List.getElem?_take, if_neg hj]
    symm
    apply List.getElem?_eq_none
    rw [← hn]
    omega

/-- A comment with a fenced code block containing a dead mention and a real
mention outside it. -/
def c4text : List Char := "```@dead``` @live ok".toList

/-- The raw mention `@live` of `c4text`. -/
def mLive : RawMention := ⟨"live".toList, 12, 17⟩

/-- Witness for C4 at a concrete input: the `@dead` mention inside the code
fence is not extracted, and the extracted `@live` span reads back from the
original text with the processed text agreeing and space-free there. -/
theorem C4_witness :
    (c4text.drop mLive.position).take (mLive.endPos - mLive.position) =
      '@' :: mLive.username ∧
    (∀ i, mLive.position ≤ i → i < mLive.endPos →
      (processedText c4text)[i]? = c4text[i]? ∧
      (processedText c4text)[i]? ≠ some ' ') :=
  C4_blanking_safety c4text mLive (by decide)

/-! ### Concrete events used in counterexamples and witnesses -/

/-- An `issue_comment` event whose comment body mentions `@alice`. -/
def evAlice : GhEvent :=
  { event := "issue_comment",
    comment := some (some
      { body := some (some "@alice hello".toList),
        user := some (some { login := some (some "alice".toList) }) }),
    issue := none,
    repository := none }

/-- An `issue_comment` event with two `@bot` mentions separated by an
`@alice` mention that a `"bot"` username filter drops. -/
def evMixed : GhEvent :=
  { event := "issue_comment",
    comment := some (some
      { body := some (some "@bot one @alice two @bot three".toList),
        user := some (some { login := some (some "u".toList) }) }),
    issue := none,
    repository := none }

/-- An event whose `comment` object is present but has no `"user"` key,
while the `repository` object is complete. -/
def evNoUserKey : GhEvent :=
  { event := "issue_comment",
    comment := some (some
      { body := some (some "@bot help".toList), user := none }),
    issue := none,
    repository := some (some
      { owner := some (some { login := some (some "octo".toList) }),
        name := some (some "repo".toList) }) }

/-- An event with neither a `comment` nor a `repository` object. -/
def evNoData : GhEvent :=
  { event := "issue_comment", comment := none, issue := none,
    repository := none }

/-- The default `ParsedMention` used with `List.getD` in witnesses. -/
def pmDefault : ParsedMention :=
  ⟨[], [], 0, ⟨0, []⟩, none, none, none⟩

/-- C1 counterexample: with no username filter (`None`),
`extract_mentions_from_event` does *not* keep every raw mention: on the body
`"@alice hello"` the raw extraction finds one mention but the event
extraction returns none, because `None` is replaced by the placeholder
pattern `"bot"`. -/
theorem C1_counterexample :
    extract_mentions_from_event evAlice none = [] ∧
    extract_all_mentions (eventCommentBody evAlice) =
      [⟨"alice".toList, 0, 6⟩] :=
  ⟨rfl, rfl⟩

/-- C1 amended: when the username pattern is `None`,
`extract_mentions_from_event` substitutes the placeholder pattern `"bot"`:
it behaves exactly as with the literal pattern `"bot"`, and every returned
mention's username equals `"bot"` up to stripping and lower-casing (so
filtering is not match-all). -/
theorem C1_amended (ev : GhEvent) :
    extract_mentions_from_event ev none =
      extract_mentions_from_event ev (some (.str "bot".toList)) ∧
    ∀ m ∈ extract_mentions_from_event ev none,
      lowerChars (stripChars m.username) = "bot".toList := by
  refine ⟨rfl, ?_⟩
  intro m hm
  obtain ⟨i, rm, hget, hmatch, hu, -, -⟩ :=
    mem_extract_mentions_from_event ev none m hm
  rw [hu]
  have h2 : (lowerChars (stripChars rm.username) ==
      lowerChars (stripChars "bot".toList)) = true := by
    simpa [matches_pattern] using hmatch
  exact eq_of_beq h2

/-- Witness for C1's amended claim at a concrete event. -/
theorem C1_amended_witness :
    lowerChars (stripChars
      ((extract_mentions_from_event evMixed none).getD 0
        pmDefault).username) = "bot".toList :=
  (C1_amended evMixed).2 _ (by decide)

/-- C2: every mention returned by `extract_mentions_from_event` comes from a
raw index `i` of the full raw-mention list, and its trailing text is
`body[mentions[i].end : boundary].strip()` where the boundary is the
position of the next *raw* mention (whether or not that one survives the
username filter), or the end of the body for the last one. -/
theorem C2_trailing_text (ev : GhEvent) (pat : Option UserPattern)
    (m : ParsedMention) (hm : m ∈ extract_mentions_from_event ev pat) :
    ∃ i rm,
      (extract_all_mentions (eventCommentBody ev))[i]? = some rm ∧
      m.username = rm.username ∧
      m.position = rm.position ∧
      m.text = stripChars
        (((eventCommentBody ev).take
            (match (extract_all_mentions (eventCommentBody ev))[i + 1]? with
             | some nxt => nxt.position
             | none => (eventCommentBody ev).length)).drop rm.endPos) := by
  obtain ⟨i, rm, hget, -, hu, hp, ht⟩ :=
    mem_extract_mentions_from_event ev pat m hm
  refine ⟨i, rm, hget, hu, hp, ?_⟩
  rw [ht]
  simp only [extract_mention_text]
  rw [← List.head?_drop]
  cases (extract_all_mentions (eventCommentBody ev)).drop (i + 1) <;> rfl

/-- Witness for C2 at a concrete event: the first kept `@bot` mention of
`evMixed`, whose trailing text `"one"` is bounded by the filtered-out
`@alice` mention. -/
theorem C2_witness :
    ∃ i rm,
      (extract_all_mentions (eventCommentBody evMixed))[i]? = some rm ∧
      ((extract_mentions_from_event evMixed
          (some (.str "bot".toList))).getD 0 pmDefault).username =
        rm.username ∧
      ((extract_mentions_from_event evMixed
          (some (.str "bot".toList))).getD 0 pmDefault).position =
        rm.position ∧
      ((extract_mentions_from_event evMixed
          (some (.str "bot".toList))).getD 0 pmDefault).text = stripChars
        (((eventCommentBody evMixed).take
            (match
              (extract_all_mentions (eventCommentBody evMixed))[i + 1]? with
             | some nxt => nxt.position
             | none => (eventCommentBody evMixed).length)).drop
          rm.endPos) :=
  C2_trailing_text evMixed (some (.str "bot".toList)) _ (by decide)

/-- The link fields after `linkMentions`, by position in the list. -/
theorem linkMentions_get (ms : List ParsedMention) (i : Nat)
    (h : i < (linkMentions ms).length) :
    ((linkMentions ms).get ⟨i, h⟩).previous_mention =
      (if 0 < i then some (i - 1) else none) ∧
    ((linkMentions ms).get ⟨i, h⟩).next_mention =
      (if i < ms.length - 1 then some (i + 1) else none) := by
  unfold linkMentions at h ⊢
  rw [List.get_eq_getElem, List.getElem_mapIdx]
  exact ⟨rfl, rfl⟩

/-- `linkMentions` preserves the length of the list. -/
theorem linkMentions_length (ms : List ParsedMention) :
    (linkMentions ms).length = ms.length := by
  unfold linkMentions
  exact List.length_mapIdx

/-- C8: the `previous_mention`/`next_mention` links of the list returned by
`extract_mentions_from_event` form a doubly-linked chain by array adjacency
over exactly the mentions that survived username filtering: entry `i` points
back to entry `i - 1` (`None` for the first) and forward to entry `i + 1`
(`None` for the last). -/
theorem C8_links (ev : GhEvent) (pat : Option UserPattern) (i : Nat)
    (h : i < (extract_mentions_from_event ev pat).length) :
    ((extract_mentions_from_event ev pat).get ⟨i, h⟩).previous_mention =
      (if i = 0 then none else some (i - 1)) ∧
    ((extract_mentions_from_event ev pat).get ⟨i, h⟩).next_mention =
      (if i = (extract_mentions_from_event ev pat).length - 1 then none
       else some (i + 1)) := by
  have hball : ∃ base, extract_mentions_from_event ev pat =
      linkMentions base := by
    unfold extract_mentions_from_event
    by_cases hb : eventCommentBody ev = []
    · exact ⟨[], by rw [if_pos hb]; rfl⟩
    · exact ⟨_, by rw [if_neg hb]⟩
  obtain ⟨base, hbase⟩ := hball
  have h2 : i < (linkMentions base).length := hbase ▸ h
  have hlt : i < base.length := by
    rw [← linkMentions_length base]; exact h2
  have hg := linkMentions_get base i h2
  have key : ∀ (l1 l2 : List ParsedMention), l1 = l2 →
      ∀ (hi : i < l1.length) (hi2 : i < l2.length),
      l1.get ⟨i, hi⟩ = l2.get ⟨i, hi2⟩ := by
    intro l1 l2 hl hi hi2
    subst hl
    rfl
  rw [key _ _ hbase h h2]
  constructor
  · rw [hg.1]
    split_ifs <;> first | rfl | omega
  · rw [hg.2, hbase, linkMentions_length]
    split_ifs <;> first | rfl | omega

/-- Witness for C8 at a concrete event: the second of the two kept `@bot`
mentions of `evMixed` links back to index 0 and forward to nothing. -/
theorem C8_witness :
    ((extract_mentions_from_event evMixed
        (some (.str "bot".toList))).get ⟨1, by decide⟩).previous_mention =
      some 0 ∧
    ((extract_mentions_from_event evMixed
        (some (.str "bot".toList))).get ⟨1, by decide⟩).next_mention =
      none := by
  have h := C8_links evMixed (some (.str "bot".toList)) 1 (by decide)
  have hlen : (extract_mentions_from_event evMixed
      (some (.str "bot".toList))).length = 2 := rfl
  simp only [hlen] at h
  simpa using h

/-- C9 counterexample: on an event whose `comment` object lacks the `user`
key (so `comment.user.login` is missing) but whose `repository` object is
complete, `check_mention_permission` raises `KeyError` instead of returning
a denied result. -/
theorem C9_counterexample :
    check_mention_permission evNoUserKey (fun _ => .httpError 500) []
      .READ = .error "KeyError: user".toList :=
  rfl

/-- C9 amended: whenever `EventInfo.from_event` extracts without raising
(which requires any present `comment`/`repository` object to contain its
nested keys) and any of the three extracted values is missing, null or
empty, the permission check returns a denied result (no error message)
without raising and with no network call; if a present object lacks a
nested key, the check raises instead (see the counterexample). -/
theorem C9_amended (ev : GhEvent) (gh : List Char → GhResult)
    (cache : PermCache) (required : Permission) (info : EventInfo)
    (hok : EventInfo.from_event ev = .ok info)
    (hfalsy : truthyStr info.comment_author = false ∨
      truthyStr info.owner = false ∨ truthyStr info.repo = false) :
    check_mention_permission ev gh cache required =
      .ok (⟨false, none⟩, cache, []) ∧
    acheck_mention_permission ev gh cache required =
      .ok (⟨false, none⟩, cache, []) := by
  have hcond : ¬(truthyStr info.comment_author = true ∧
      truthyStr info.owner = true ∧ truthyStr info.repo = true) := by
    rcases hfalsy with h | h | h <;> simp [h]
  unfold check_mention_permission acheck_mention_permission
  rw [hok]
  constructor <;>
    · show (if truthyStr info.comment_author ∧ truthyStr info.owner ∧
          truthyStr info.repo then _ else _) = _
      rw [if_neg (by simpa using hcond)]
      rfl

/-- Witness for C9's amended claim: an event with no `comment` and no
`repository` object is denied with no calls. -/
theorem C9_witness :
    check_mention_permission evNoData (fun _ => .httpError 500) []
      .ADMIN = .ok (⟨false, none⟩, [], []) :=
  (C9_amended evNoData (fun _ => .httpError 500) [] .ADMIN
    ⟨none, none, none⟩ rfl (Or.inl rfl)).1

end DGA
